import Mathlib

/-!
Shallow embedding of the Rolodex directory service (`app.py`): an in-memory
roster of employee and participant records, token-based authentication, and a
partial-update merge engine.  Python dicts are modelled as association lists
with first-binding lookup, dict values by an explicit `Value` type, and wall
clock time by an integer number of seconds.
-/

/-- Python's `str.lower()` (ASCII case folding, as used on usernames and the
position attribute), written over the character list so that it reduces in the
kernel. -/
def pyLower (s : String) : String := ⟨s.data.map Char.toLower⟩

/-- Python's `str.strip()`: drop leading and trailing whitespace. -/
def pyStrip (s : String) : String :=
  ⟨((s.data.dropWhile Char.isWhitespace).reverse.dropWhile
      Char.isWhitespace).reverse⟩

/-- JSON-style values stored in a record: null, a string, or an integer. -/
inductive Value where
  | vNull : Value
  | vStr : String → Value
  | vInt : Int → Value
deriving DecidableEq, Repr

/-- A Python dict keyed by `κ`, as an association list (first binding wins). -/
abbrev Dict (κ α : Type) := List (κ × α)

/-- Dict lookup `d[k]` returning `none` when the key is absent. -/
def dictGet {κ α : Type} [DecidableEq κ] : Dict κ α → κ → Option α
  | [], _ => none
  | (k, v) :: d, key => if k = key then some v else dictGet d key

/-- Dict assignment `d[k] = v`: replaces the first binding of `k` in place, or
appends a new binding when `k` is absent. -/
def dictSet {κ α : Type} [DecidableEq κ] : Dict κ α → κ → α → Dict κ α
  | [], key, val => [(key, val)]
  | (k, v) :: d, key, val =>
      if k = key then (key, val) :: d else (k, v) :: dictSet d key val

/-- Dict deletion `del d[k]`: removes every binding of `k`. -/
def dictDel {κ α : Type} [DecidableEq κ] (d : Dict κ α) (key : κ) : Dict κ α :=
  d.filter (fun kv => kv.1 ≠ key)

/-- Membership test `k in d`. -/
def dictHas {κ α : Type} [DecidableEq κ] (d : Dict κ α) (key : κ) : Bool :=
  (dictGet d key).isSome

/-- A record (employee or participant) is a dict from attribute names to
values. -/
abbrev Record := Dict String Value

/-- Python dict equality `r1 == r2`: the two dicts bind the same keys to the
same values, irrespective of insertion order. -/
def dictEq (r1 r2 : Record) : Prop :=
  (∀ kv ∈ r1, dictGet r2 kv.1 = dictGet r1 kv.1) ∧
  (∀ kv ∈ r2, dictGet r1 kv.1 = dictGet r2 kv.1)

instance (r1 r2 : Record) : Decidable (dictEq r1 r2) := by
  unfold dictEq; exact inferInstance

/-- Participant UID range boundary (`MAX_PARTICIPANT_UID = 500`). -/
def MAX_PARTICIPANT_UID : Int := 500

/-- Access-token lifetime in seconds (`ACCESS_TOKEN_LIFETIME = 900`). -/
def ACCESS_TOKEN_LIFETIME : Int := 900

/-- The fixed participant record built by `load_participants` for one CSV row:
every attribute other than username/password starts at the fixed placeholder,
the password is stored as the (already hashed) CSV field, and the token field
starts as null. -/
def mkParticipant (uid : Int) (username password : String) : Record :=
  [("uid", Value.vInt uid),
   ("name", Value.vStr "John J. Random"),
   ("phone", Value.vStr "55590210"),
   ("location", Value.vStr "Building 3, Floor 10, Office 1A"),
   ("department", Value.vStr "Mergers and Acquisitions"),
   ("position", Value.vStr "Intern"),
   ("notes", Value.vStr "Still hasn't signed the corporate security policy."),
   ("username", Value.vStr username),
   ("password", Value.vStr password),
   ("token", Value.vNull)]

/-- Loop of `load_participants`: walks the CSV rows in file order keeping the
running uid counter, normalising the username (`strip().lower()`) and storing
each record in the username-keyed dict. -/
def load_participants_aux : List (String × String) → Int →
    Dict String Record → Dict String Record
  | [], _, acc => acc
  | (u, pw) :: rest, uid, acc =>
      let username := pyLower (pyStrip u)
      load_participants_aux rest (uid + 1)
        (dictSet acc username (mkParticipant uid username pw))

/-- `load_participants`: the uid counter starts at `MAX_PARTICIPANT_UID` and is
incremented after each row, so the first row receives uid 500 itself. -/
def load_participants (rows : List (String × String)) : Dict String Record :=
  load_participants_aux rows MAX_PARTICIPANT_UID []

/-- `has_admin_privileges(user)`: `user["position"].lower() == "admin"`.  The
source assumes the attribute is present and is a string (a `KeyError` /
`AttributeError` would escape otherwise); the embedding answers `false` on the
degenerate shapes, and theorems carry the string-typed hypothesis. -/
def has_admin_privileges (user : Record) : Bool :=
  match dictGet user "position" with
  | some (Value.vStr s) => decide (pyLower s = "admin")
  | _ => false

/-- One entry of the `access_tokens` table. -/
structure TokenInfo where
  username : String
  uid : Int
  expires : Int
deriving DecidableEq, Repr

/-- The mutable server state: employee dict keyed by uid, participant dict
keyed by username, active-token table keyed by token string, and a counter of
`save_participants()` calls standing in for persistence writes. -/
structure ServerState where
  employee_data : Dict Int Record
  participant_data : Dict String Record
  access_tokens : Dict String TokenInfo
  saveCount : Nat
deriving DecidableEq, Repr

/-- Outcome of the `ensure_valid_token` guard. -/
inductive Resolved where
  | badToken : Resolved
  | crash : Resolved
  | ok : String → Record → Bool → Resolved
deriving DecidableEq, Repr

/-- The `ensure_valid_token` guard: reject (403 "bad access token") when the
token is unknown or `expires < time.time()`, otherwise look up the owning
participant and recompute the privileged flag from the current record.
`crash` marks the `KeyError` the source would raise if the recorded username
were missing from `participant_data`. -/
def resolve_token (st : ServerState) (token : String) (now : Int) : Resolved :=
  match dictGet st.access_tokens token with
  | none => Resolved.badToken
  | some info =>
      if info.expires < now then Resolved.badToken
      else
        match dictGet st.participant_data info.username with
        | none => Resolved.crash
        | some user => Resolved.ok info.username user (has_admin_privileges user)

/-- Truthiness of `participant["token"]`: the field is only ever null or a
token string, and the empty string is falsy. -/
def truthyToken : Option Value → Option String
  | some (Value.vStr s) => if s = "" then none else some s
  | _ => none

/-- The uid of a record, as read by `participant["uid"]` on a well-formed
record. -/
def recUid (r : Record) : Int :=
  match dictGet r "uid" with
  | some (Value.vInt n) => n
  | _ => 0

/-- Outcome of `GET /token`. -/
inductive TokenResult where
  | badCredentials : TokenResult
  | issued : String → Int → Int → TokenResult
deriving DecidableEq, Repr

/-- `get_token`: normalise the username, check the stored password hash against
the supplied one (`password_hash` stands for `sha1(password).hexdigest()`),
delete any previously active token from the table, record the fresh random
token (`new_token` stands for `sha256(urandom(1024)).hexdigest()`) with expiry
`now + ACCESS_TOKEN_LIFETIME`, store it in the participant record, and save. -/
def get_token (st : ServerState) (username password_hash new_token : String)
    (now : Int) : TokenResult × ServerState :=
  let uname := pyLower (pyStrip username)
  match dictGet st.participant_data uname with
  | none => (TokenResult.badCredentials, st)
  | some participant =>
      if dictGet participant "password" ≠ some (Value.vStr password_hash) then
        (TokenResult.badCredentials, st)
      else
        let tokens1 :=
          match truthyToken (dictGet participant "token") with
          | some old => dictDel st.access_tokens old
          | none => st.access_tokens
        let participant1 := dictSet participant "token" (Value.vStr new_token)
        let expires := now + ACCESS_TOKEN_LIFETIME
        let info : TokenInfo := ⟨uname, recUid participant, expires⟩
        (TokenResult.issued new_token (recUid participant) expires,
         { st with
             participant_data := dictSet st.participant_data uname participant1,
             access_tokens := dictSet tokens1 new_token info,
             saveCount := st.saveCount + 1 })

/-- The fixed public attribute subset used by the read handlers. -/
def attributes_public : List String :=
  ["uid", "username", "name", "location", "department", "position"]

/-- The dict comprehension `{k: r[k] for k in ks}`.  On the records the service
builds every projected key is present; a key the record lacks (where the
source would raise `KeyError`) is simply dropped. -/
def projectKeys (r : Record) (ks : List String) : Record :=
  ks.filterMap (fun k => (dictGet r k).map (fun v => (k, v)))

/-- Outcome of `GET /users/<uid>`. -/
inductive GetUserResult where
  | badToken : GetUserResult
  | crash : GetUserResult
  | notFound : GetUserResult
  | found : Record → GetUserResult
deriving DecidableEq, Repr

/-- Handler body of `GET /users/<uid>` once the guard has resolved the caller:
return the caller's own record projected to the public attributes plus
`"notes"` when the uid is the caller's own, else the public projection of the
employee record (plus `"notes"` when privileged), else 404 via the
`if not entry` emptiness test. -/
def get_user_entry (employees : Dict Int Record) (participant : Record)
    (privileged : Bool) (uid : Int) : GetUserResult :=
  let entry : Record :=
    if dictGet participant "uid" = some (Value.vInt uid) then
      projectKeys participant (attributes_public ++ ["notes"])
    else
      match dictGet employees uid with
      | some employee =>
          let e := projectKeys employee attributes_public
          if privileged then
            match dictGet employee "notes" with
            | some v => dictSet e "notes" v
            | none => e
          else e
      | none => []
  if entry.isEmpty then GetUserResult.notFound else GetUserResult.found entry

/-- `get_user`: the `ensure_valid_token` guard followed by the handler body. -/
def get_user (st : ServerState) (token : String) (uid : Int) (now : Int) :
    GetUserResult :=
  match resolve_token st token now with
  | Resolved.badToken => GetUserResult.badToken
  | Resolved.crash => GetUserResult.crash
  | Resolved.ok _ participant privileged =>
      get_user_entry st.employee_data participant privileged uid

/-- The attributes that can be edited (`rw_attributes`). -/
def rw_attributes : List String :=
  ["name", "location", "department", "position", "notes"]

/-- The key of a JSON object member, as iterated by `changes.iteritems()`, is
always a string, so the source's `attribute is None` test can never hold. -/
def changeKeyIsNone (_ : String) : Bool := false

/-- The merge loop of `set_user`: start from `deepcopy(participant)` and fold
the submitted changes.  The source's guard `attribute is None and attribute in
entry` tests the KEY against `None`; JSON object keys are strings, so the
deletion branch is unreachable and each submitted value — null included — is
assigned. -/
def mergeChanges (participant : Record) (changes : List (String × Value)) :
    Record :=
  changes.foldl
    (fun entry kv =>
      if changeKeyIsNone kv.1 && dictHas entry kv.1 then dictDel entry kv.1
      else dictSet entry kv.1 kv.2)
    participant

/-- Outcome of `PUT /users/<uid>`. -/
inductive SetUserResult where
  | badToken : SetUserResult
  | crash : SetUserResult
  | forbidden : String → SetUserResult
  | invalidJson : SetUserResult
  | badAttributes : SetUserResult
  | notModified : SetUserResult
  | ok : SetUserResult
deriving DecidableEq, Repr

/-- Handler body of `PUT /users/<uid>` once the guard has resolved the caller:
reject a uid other than the caller's own with 403 ("not implemented" when
privileged, "forbidden" otherwise) before the body is even parsed; then parse
the JSON body (`none` models a malformed or absent body, rejected with 400);
reject any key outside `rw_attributes` with 400; merge; answer 304 without
saving when the merge result equals the current record; otherwise store the
merged record and save. -/
def set_user_own (st : ServerState) (username : String) (participant : Record)
    (privileged : Bool) (uid : Int)
    (body : Option (List (String × Value))) : SetUserResult × ServerState :=
  if dictGet participant "uid" ≠ some (Value.vInt uid) then
    (SetUserResult.forbidden
        (if privileged then "not implemented" else "forbidden"), st)
  else
    match body with
    | none => (SetUserResult.invalidJson, st)
    | some changes =>
        if ∃ kv ∈ changes, kv.1 ∉ rw_attributes then
          (SetUserResult.badAttributes, st)
        else
          let entry := mergeChanges participant changes
          if dictEq entry participant then (SetUserResult.notModified, st)
          else
            (SetUserResult.ok,
             { st with
                 participant_data :=
                   dictSet st.participant_data username entry,
                 saveCount := st.saveCount + 1 })

/-- `set_user`: the `ensure_valid_token` guard followed by the handler body. -/
def set_user (st : ServerState) (token : String) (uid : Int)
    (body : Option (List (String × Value))) (now : Int) :
    SetUserResult × ServerState :=
  match resolve_token st token now with
  | Resolved.badToken => (SetUserResult.badToken, st)
  | Resolved.crash => (SetUserResult.crash, st)
  | Resolved.ok username participant privileged =>
      set_user_own st username participant privileged uid body

/-- Keys of a dict are pairwise distinct (true of every real Python dict). -/
def keysNodup {κ α : Type} (d : Dict κ α) : Prop := (d.map Prod.fst).Nodup

/-- The uid stored in a record, when it is an integer. -/
def uidOf (r : Record) : Option Int :=
  match dictGet r "uid" with
  | some (Value.vInt n) => some n
  | _ => none

/-- The uids of all stored participant records, in roster order. -/
def participantUids (ps : Dict String Record) : List Int :=
  ps.filterMap (fun p => uidOf p.2)

/-- The token string recorded in a record's token field, when it is one. -/
def recTokenStr (r : Record) : Option String :=
  match dictGet r "token" with
  | some (Value.vStr s) => some s
  | _ => none

/-- Well-formedness of a token field: null or a nonempty string, as the loader
creates it and issuance maintains it. -/
def tokenFieldOk (r : Record) : Bool :=
  match dictGet r "token" with
  | some Value.vNull => true
  | some (Value.vStr s) => decide (s ≠ "")
  | _ => false

/-- The recorded token strings of all participants, in roster order. -/
def recordedTokens (ps : Dict String Record) : List String :=
  ps.filterMap (fun p => recTokenStr p.2)

/-- State well-formedness accompanying the token-table invariant: participant
usernames are unique (they key a Python dict), every token field is null or a
nonempty string, and no two participants record the same token string. -/
def participants_wf (ps : Dict String Record) : Prop :=
  keysNodup ps ∧ (∀ p ∈ ps, tokenFieldOk p.2 = true) ∧
  (recordedTokens ps).Nodup

/-- The spec's token-table invariant: every table entry is some participant's
currently-recorded token, and every recorded token is in the table. -/
def token_table_iff (st : ServerState) : Prop :=
  (∀ tk ∈ st.access_tokens,
      ∃ p ∈ st.participant_data, recTokenStr p.2 = some tk.1) ∧
  (∀ p ∈ st.participant_data,
      (recTokenStr p.2).all (fun s => dictHas st.access_tokens s) = true)

/-- The token-table invariant together with its supporting well-formedness. -/
def token_invariant (st : ServerState) : Prop :=
  participants_wf st.participant_data ∧ token_table_iff st

instance (ps : Dict String Record) : Decidable (participants_wf ps) := by
  unfold participants_wf keysNodup
  exact inferInstance

instance (st : ServerState) : Decidable (token_table_iff st) := by
  unfold token_table_iff
  exact inferInstance

instance (st : ServerState) : Decidable (token_invariant st) := by
  unfold token_invariant
  exact inferInstance

/-- A concrete participant (alice, uid 500) holding the active token "t1",
used by the witnesses. -/
def wAlice : Record :=
  dictSet (mkParticipant 500 "alice" "h") "token" (Value.vStr "t1")

/-- A concrete employee record (bob, uid 501) used by the witnesses. -/
def wBob : Record :=
  [("uid", Value.vInt 501),
   ("name", Value.vStr "Bob B. Employee"),
   ("username", Value.vStr "bob"),
   ("phone", Value.vStr "555123"),
   ("location", Value.vStr "HQ"),
   ("department", Value.vStr "IT"),
   ("position", Value.vStr "CTO"),
   ("notes", Value.vStr "keys under the mat")]

/-- A concrete server state used by the witnesses: one employee, one
participant, one active unexpired token. -/
def wState : ServerState :=
  { employee_data := [(501, wBob)],
    participant_data := [("alice", wAlice)],
    access_tokens := [("t1", ⟨"alice", 500, 900⟩)],
    saveCount := 0 }

/-! Basic facts about the dict operations. -/

section DictLemmas

variable {κ α : Type} [DecidableEq κ]

theorem dictGet_dictSet_self (d : Dict κ α) (k : κ) (v : α) :
    dictGet (dictSet d k v) k = some v := by
  induction d with
  | nil => simp [dictGet, dictSet]
  | cons kv d ih =>
      obtain ⟨k0, v0⟩ := kv
      by_cases h : k0 = k <;> simp [dictGet, dictSet, h, ih]

theorem dictGet_dictSet_ne (d : Dict κ α) {k k' : κ} (v : α) (h : k' ≠ k) :
    dictGet (dictSet d k v) k' = dictGet d k' := by
  induction d with
  | nil => simp [dictGet, dictSet, Ne.symm h]
  | cons kv d ih =>
      obtain ⟨k0, v0⟩ := kv
      by_cases hk : k0 = k
      · subst hk
        simp [dictGet, dictSet, Ne.symm h]
      · by_cases hk' : k0 = k'
        · subst hk'
          simp [dictGet, dictSet, hk]
        · simp [dictGet, dictSet, hk, hk', ih]

theorem dictGet_dictDel_self (d : Dict κ α) (k : κ) :
    dictGet (dictDel d k) k = none := by
  induction d with
  | nil => simp [dictGet, dictDel]
  | cons kv d ih =>
      obtain ⟨k0, v0⟩ := kv
      by_cases h : k0 = k <;>
        simp_all [dictGet, dictDel, List.filter_cons, h]

theorem dictGet_dictDel_ne (d : Dict κ α) {k k' : κ} (h : k' ≠ k) :
    dictGet (dictDel d k) k' = dictGet d k' := by
  induction d with
  | nil => simp [dictGet, dictDel]
  | cons kv d ih =>
      obtain ⟨k0, v0⟩ := kv
      by_cases hk : k0 = k
      · subst hk
        simp_all [dictGet, dictDel, List.filter_cons, Ne.symm h]
      · by_cases hk' : k0 = k' <;>
          simp_all [dictGet, dictDel, List.filter_cons, hk, hk']

theorem dictGet_eq_some_mem {d : Dict κ α} {k : κ} {v : α}
    (h : dictGet d k = some v) : (k, v) ∈ d := by
  induction d with
  | nil => simp [dictGet] at h
  | cons kv d ih =>
      obtain ⟨k0, v0⟩ := kv
      by_cases hk : k0 = k
      · subst hk
        simp [dictGet] at h
        subst h
        exact List.mem_cons_self _ _
      · simp [dictGet, hk] at h
        exact List.mem_cons_of_mem _ (ih h)

theorem mem_dictSet {d : Dict κ α} {k : κ} {v : α} {x : κ × α}
    (h : x ∈ dictSet d k v) : x ∈ d ∨ x = (k, v) := by
  induction d with
  | nil =>
      simp [dictSet] at h
      simp [h]
  | cons kv d ih =>
      obtain ⟨k0, v0⟩ := kv
      by_cases hk : k0 = k
      · simp only [dictSet, if_pos hk, List.mem_cons] at h
        rcases h with h | h
        · right; simp [h]
        · left; exact List.mem_cons_of_mem _ h
      · simp only [dictSet, if_neg hk, List.mem_cons] at h
        rcases h with h | h
        · left; simp [h]
        · rcases ih h with h' | h'
          · left; exact List.mem_cons_of_mem _ h'
          · right; exact h'

theorem self_mem_dictSet (d : Dict κ α) (k : κ) (v : α) :
    (k, v) ∈ dictSet d k v := by
  induction d with
  | nil => simp [dictSet]
  | cons kv d ih =>
      obtain ⟨k0, v0⟩ := kv
      by_cases hk : k0 = k <;> simp [dictSet, hk, ih]

theorem mem_dictSet_of_ne {d : Dict κ α} {x : κ × α} (k : κ) (v : α)
    (hx : x ∈ d) (hne : x.1 ≠ k) : x ∈ dictSet d k v := by
  induction d with
  | nil => simp at hx
  | cons kv d ih =>
      obtain ⟨k0, v0⟩ := kv
      rcases List.mem_cons.mp hx with h | h
      · subst h
        simp only at hne
        simp [dictSet, hne, List.mem_cons]
      · by_cases hk : k0 = k
        · subst hk
          have hset : dictSet ((k0, v0) :: d) k0 v = (k0, v) :: d := by
            simp [dictSet]
          rw [hset]
          exact List.mem_cons_of_mem _ h
        · simp only [dictSet, if_neg hk, List.mem_cons]
          exact Or.inr (ih h)

theorem mem_dictDel {d : Dict κ α} {k : κ} {x : κ × α} :
    x ∈ dictDel d k ↔ x ∈ d ∧ x.1 ≠ k := by
  simp [dictDel, List.mem_filter]

theorem dictSet_eq_append {d : Dict κ α} {k : κ} (v : α)
    (h : dictGet d k = none) : dictSet d k v = d ++ [(k, v)] := by
  induction d with
  | nil => simp [dictSet]
  | cons kv d ih =>
      obtain ⟨k0, v0⟩ := kv
      by_cases hk : k0 = k
      · simp [dictGet, hk] at h
      · simp only [dictGet, if_neg hk] at h
        simp [dictSet, hk, ih h]

end DictLemmas


theorem keysNodup_dictSet {κ α : Type} [DecidableEq κ] {d : Dict κ α}
    (k : κ) (v : α) (h : keysNodup d) : keysNodup (dictSet d k v) := by
  induction d with
  | nil => simp [dictSet, keysNodup]
  | cons kv d ih =>
      obtain ⟨k0, v0⟩ := kv
      unfold keysNodup at h ⊢
      simp only [List.map_cons, List.nodup_cons] at h
      by_cases hk : k0 = k
      · subst hk
        have hset : dictSet ((k0, v0) :: d) k0 v = (k0, v) :: d := by
          simp [dictSet]
        rw [hset]
        simp only [List.map_cons, List.nodup_cons]
        exact h
      · simp only [dictSet, if_neg hk, List.map_cons, List.nodup_cons]
        refine ⟨?_, ih h.2⟩
        intro hmem
        rcases List.mem_map.mp hmem with ⟨x, hx, hx1⟩
        rcases mem_dictSet hx with h' | h'
        · exact h.1 (List.mem_map.mpr ⟨x, h', hx1⟩)
        · apply hk
          rw [h'] at hx1
          simpa using hx1.symm

theorem dictGet_of_mem_nodup {κ α : Type} [DecidableEq κ] {d : Dict κ α}
    {k : κ} {v : α} (hnd : keysNodup d) (h : (k, v) ∈ d) :
    dictGet d k = some v := by
  induction d with
  | nil => simp at h
  | cons kv d ih =>
      obtain ⟨k0, v0⟩ := kv
      unfold keysNodup at hnd
      simp only [List.map_cons, List.nodup_cons] at hnd
      rcases List.mem_cons.mp h with h' | h'
      · rw [show k = k0 from by simpa using congrArg Prod.fst h',
            show v = v0 from by simpa using congrArg Prod.snd h']
        simp [dictGet]
      · by_cases hk : k0 = k
        · exfalso
          exact hnd.1 (List.mem_map.mpr ⟨(k, v), h', by simp [hk]⟩)
        · simp only [dictGet, if_neg hk]
          exact ih hnd.2 h'

theorem mem_dictSet_iff {κ α : Type} [DecidableEq κ] {d : Dict κ α}
    {k : κ} {v0 v : α} (hnd : keysNodup d) (hget : dictGet d k = some v0)
    {x : κ × α} : x ∈ dictSet d k v ↔ (x ∈ d ∧ x.1 ≠ k) ∨ x = (k, v) := by
  induction d with
  | nil => simp [dictGet] at hget
  | cons kv d ih =>
      obtain ⟨k0, w0⟩ := kv
      unfold keysNodup at hnd
      simp only [List.map_cons, List.nodup_cons] at hnd
      by_cases hk : k0 = k
      · subst hk
        have hset : dictSet ((k0, w0) :: d) k0 v = (k0, v) :: d := by
          simp [dictSet]
        rw [hset]
        simp only [List.mem_cons]
        constructor
        · rintro (h | h)
          · right; rw [h]
          · left
            refine ⟨Or.inr h, ?_⟩
            intro hx
            exact hnd.1 (List.mem_map.mpr ⟨x, h, hx⟩)
        · rintro (⟨hmem, hne⟩ | h)
          · rcases hmem with h' | h'
            · exact absurd (by simpa using congrArg Prod.fst h') hne
            · exact Or.inr h'
          · exact Or.inl h
      · simp only [dictGet, if_neg hk] at hget
        have hset : dictSet ((k0, w0) :: d) k v = (k0, w0) :: dictSet d k v := by
          simp [dictSet, hk]
        rw [hset]
        simp only [List.mem_cons]
        rw [ih hnd.2 hget]
        constructor
        · rintro (h | (h | h))
          · refine Or.inl ⟨Or.inl h, ?_⟩
            rw [h]
            exact hk
          · exact Or.inl ⟨Or.inr h.1, h.2⟩
          · exact Or.inr h
        · rintro (⟨hmem, hne⟩ | h)
          · rcases hmem with h' | h'
            · exact Or.inl h'
            · exact Or.inr (Or.inl ⟨h', hne⟩)
          · exact Or.inr (Or.inr h)

theorem dictEq_get {r1 r2 : Record} (h : dictEq r1 r2) (k : String) :
    dictGet r1 k = dictGet r2 k := by
  rcases h with ⟨h1, h2⟩
  cases hg : dictGet r1 k with
  | some v =>
      have h := h1 (k, v) (dictGet_eq_some_mem hg)
      simp only at h
      rw [hg] at h
      rw [h]
  | none =>
      cases hg2 : dictGet r2 k with
      | none => rfl
      | some v =>
          have := h2 (k, v) (dictGet_eq_some_mem hg2)
          rw [hg, hg2] at this
          exact this

/-- The deletion guard of the merge loop is unreachable, so the merge is a
left fold of dict assignments. -/
theorem mergeChanges_eq_foldl (participant : Record)
    (changes : List (String × Value)) :
    mergeChanges participant changes =
      changes.foldl (fun entry kv => dictSet entry kv.1 kv.2) participant := by
  simp [mergeChanges, changeKeyIsNone]

theorem mergeChanges_get_of_not_key (participant : Record)
    (changes : List (String × Value)) (k : String)
    (h : ∀ kv ∈ changes, kv.1 ≠ k) :
    dictGet (mergeChanges participant changes) k = dictGet participant k := by
  rw [mergeChanges_eq_foldl]
  induction changes generalizing participant with
  | nil => rfl
  | cons kv changes ih =>
      simp only [List.foldl_cons]
      rw [ih _ (fun kv' h' => h kv' (List.mem_cons_of_mem _ h'))]
      exact dictGet_dictSet_ne _ _ (Ne.symm (h kv (List.mem_cons_self _ _)))

theorem mergeChanges_singleton (participant : Record) (k : String) (v : Value) :
    mergeChanges participant [(k, v)] = dictSet participant k v := by
  rw [mergeChanges_eq_foldl]
  rfl

theorem dictGet_projectKeys (r : Record) (ks : List String) (k : String) :
    dictGet (projectKeys r ks) k = if k ∈ ks then dictGet r k else none := by
  induction ks with
  | nil => simp [projectKeys, dictGet]
  | cons k0 ks ih =>
      by_cases hk : k0 = k
      · subst hk
        cases hg : dictGet r k0 with
        | none =>
            simp only [projectKeys, List.filterMap_cons, hg, Option.map_none']
            rw [show projectKeys r ks = List.filterMap
                  (fun k => Option.map (fun v => (k, v)) (dictGet r k)) ks from rfl] at ih
            rw [ih]
            simp [hg]
        | some v =>
            simp only [projectKeys, List.filterMap_cons, hg, Option.map_some']
            simp [dictGet]
      · cases hg : dictGet r k0 with
        | none =>
            simp only [projectKeys, List.filterMap_cons, hg, Option.map_none']
            rw [show projectKeys r ks = List.filterMap
                  (fun k => Option.map (fun v => (k, v)) (dictGet r k)) ks from rfl] at ih
            rw [ih]
            have hk' : ¬ k = k0 := fun e => hk e.symm
            simp [hk']
        | some v =>
            simp only [projectKeys, List.filterMap_cons, hg, Option.map_some']
            simp only [dictGet, if_neg hk]
            rw [show projectKeys r ks = List.filterMap
                  (fun k => Option.map (fun v => (k, v)) (dictGet r k)) ks from rfl] at ih
            rw [ih]
            have hk' : ¬ k = k0 := fun e => hk e.symm
            simp [hk']

/-- Inversion of a successful token resolution: the guard found an unexpired
table entry whose username names a participant, and the privileged flag was
recomputed from that participant's current record. -/
theorem resolve_token_ok_inv {st : ServerState} {token : String} {now : Int}
    {u : String} {p : Record} {b : Bool}
    (h : resolve_token st token now = Resolved.ok u p b) :
    ∃ info : TokenInfo, dictGet st.access_tokens token = some info ∧
      info.username = u ∧ ¬ info.expires < now ∧
      dictGet st.participant_data u = some p ∧
      b = has_admin_privileges p := by
  unfold resolve_token at h
  cases hg : dictGet st.access_tokens token with
  | none =>
      rw [hg] at h
      exact absurd h (by simp)
  | some info =>
      rw [hg] at h
      dsimp only at h
      by_cases hexp : info.expires < now
      · rw [if_pos hexp] at h
        exact absurd h (by simp)
      · rw [if_neg hexp] at h
        cases hp : dictGet st.participant_data info.username with
        | none =>
            rw [hp] at h
            exact absurd h (by simp)
        | some user =>
            rw [hp] at h
            dsimp only at h
            injection h with h1 h2 h3
            subst h1
            subst h2
            exact ⟨info, rfl, rfl, hexp, hp, h3.symm⟩

theorem set_user_resolved {st : ServerState} {token : String} {now : Int}
    {username : String} {participant : Record} {privileged : Bool}
    (h : resolve_token st token now = Resolved.ok username participant privileged)
    (uid : Int) (body : Option (List (String × Value))) :
    set_user st token uid body now =
      set_user_own st username participant privileged uid body := by
  unfold set_user
  rw [h]

theorem get_user_resolved {st : ServerState} {token : String} {now : Int}
    {username : String} {participant : Record} {privileged : Bool}
    (h : resolve_token st token now = Resolved.ok username participant privileged)
    (uid : Int) :
    get_user st token uid now =
      get_user_entry st.employee_data participant privileged uid := by
  unfold get_user
  rw [h]

/-- Inversion of a successful token issuance: the credentials matched a stored
participant, and the resulting state deletes the previous token (when one was
recorded), stores the fresh one in both the table and the record, and bumps
the persistence counter. -/
theorem get_token_issued_inv {st st' : ServerState}
    {username password_hash new_token tok : String} {uid exp now : Int}
    (h : get_token st username password_hash new_token now =
      (TokenResult.issued tok uid exp, st')) :
    ∃ participant : Record,
      dictGet st.participant_data (pyLower (pyStrip username)) =
        some participant ∧
      dictGet participant "password" = some (Value.vStr password_hash) ∧
      tok = new_token ∧ uid = recUid participant ∧
      exp = now + ACCESS_TOKEN_LIFETIME ∧
      st'.employee_data = st.employee_data ∧
      st'.participant_data =
        dictSet st.participant_data (pyLower (pyStrip username))
          (dictSet participant "token" (Value.vStr new_token)) ∧
      st'.access_tokens =
        dictSet
          (match truthyToken (dictGet participant "token") with
           | some old => dictDel st.access_tokens old
           | none => st.access_tokens)
          new_token
          ⟨pyLower (pyStrip username), recUid participant,
           now + ACCESS_TOKEN_LIFETIME⟩ ∧
      st'.saveCount = st.saveCount + 1 := by
  unfold get_token at h
  dsimp only at h
  cases hp : dictGet st.participant_data (pyLower (pyStrip username)) with
  | none =>
      rw [hp] at h
      exact absurd (congrArg Prod.fst h) (by simp)
  | some participant =>
      rw [hp] at h
      dsimp only at h
      by_cases hpw : dictGet participant "password" = some (Value.vStr password_hash)
      · rw [if_neg (by simpa using hpw)] at h
        refine ⟨participant, rfl, hpw, ?_⟩
        have h1 := congrArg Prod.fst h
        have h2 := congrArg Prod.snd h
        dsimp only at h1 h2
        injection h1 with ht hu he
        exact ⟨ht.symm, hu.symm, he.symm, by rw [← h2], by rw [← h2], by rw [← h2], by rw [← h2]⟩
      · rw [if_pos (by simpa using hpw)] at h
        exact absurd (congrArg Prod.fst h) (by simp)

theorem projectKeys_isEmpty_false {r : Record} {ks : List String} {k : String}
    (hk : k ∈ ks) {v : Value} (hv : dictGet r k = some v) :
    (projectKeys r ks).isEmpty = false := by
  have hmem : (k, v) ∈ projectKeys r ks :=
    List.mem_filterMap.mpr ⟨k, hk, by rw [hv]; rfl⟩
  cases hpk : projectKeys r ks with
  | nil => rw [hpk] at hmem; simp at hmem
  | cons a l => rfl

theorem dictSet_isEmpty_false {κ α : Type} [DecidableEq κ]
    (d : Dict κ α) (k : κ) (v : α) : (dictSet d k v).isEmpty = false := by
  cases d with
  | nil => rfl
  | cons kv d =>
      obtain ⟨k0, v0⟩ := kv
      by_cases h : k0 = k <;> simp [dictSet, h]

theorem recordedTokens_nil : recordedTokens [] = [] := rfl

theorem recordedTokens_cons_none {q0 : String × Record}
    {ps : Dict String Record} (h : recTokenStr q0.2 = none) :
    recordedTokens (q0 :: ps) = recordedTokens ps := by
  unfold recordedTokens
  exact @List.filterMap_cons_none _ _ (fun p => recTokenStr p.2) q0 ps h

theorem recordedTokens_cons_some {q0 : String × Record}
    {ps : Dict String Record} {s : String} (h : recTokenStr q0.2 = some s) :
    recordedTokens (q0 :: ps) = s :: recordedTokens ps := by
  unfold recordedTokens
  exact @List.filterMap_cons_some _ _ (fun p => recTokenStr p.2) q0 ps s h

theorem mem_recordedTokens_of_mem {ps : Dict String Record}
    {q : String × Record} (h : q ∈ ps) {s : String}
    (hs : recTokenStr q.2 = some s) : s ∈ recordedTokens ps :=
  List.mem_filterMap.mpr ⟨q, h, hs⟩

theorem mem_recordedTokens {ps : Dict String Record} {s : String}
    (h : s ∈ recordedTokens ps) :
    ∃ q ∈ ps, recTokenStr q.2 = some s := by
  rcases List.mem_filterMap.mp h with ⟨q, hq, hs⟩
  exact ⟨q, hq, hs⟩

theorem recordedTokens_cons_tail {q0 : String × Record}
    {ps : Dict String Record} (h : (recordedTokens (q0 :: ps)).Nodup) :
    (recordedTokens ps).Nodup := by
  cases hq0 : recTokenStr q0.2 with
  | none => rwa [recordedTokens_cons_none hq0] at h
  | some m0 =>
      rw [recordedTokens_cons_some hq0] at h
      exact (List.nodup_cons.mp h).2

/-- Two distinct roster entries cannot record the same token string when the
recorded tokens are pairwise distinct. -/
theorem recorded_token_unique {ps : Dict String Record}
    (hnd : (recordedTokens ps).Nodup)
    {q1 q2 : String × Record} (h1 : q1 ∈ ps) (h2 : q2 ∈ ps)
    (hne : q1.1 ≠ q2.1) {s : String}
    (hs1 : recTokenStr q1.2 = some s) (hs2 : recTokenStr q2.2 = some s) :
    False := by
  induction ps with
  | nil => simp at h1
  | cons q0 ps ih =>
      have htail : (recordedTokens ps).Nodup := recordedTokens_cons_tail hnd
      rcases List.mem_cons.mp h1 with e1 | m1
      · rcases List.mem_cons.mp h2 with e2 | m2
        · exact hne (by rw [e1, e2])
        · have hmem : s ∈ recordedTokens ps := mem_recordedTokens_of_mem m2 hs2
          rw [recordedTokens_cons_some (e1 ▸ hs1)] at hnd
          exact (List.nodup_cons.mp hnd).1 hmem
      · rcases List.mem_cons.mp h2 with e2 | m2
        · have hmem : s ∈ recordedTokens ps := mem_recordedTokens_of_mem m1 hs1
          rw [recordedTokens_cons_some (e2 ▸ hs2)] at hnd
          exact (List.nodup_cons.mp hnd).1 hmem
        · exact ih htail m1 m2

theorem mem_recordedTokens_dictSet {ps : Dict String Record} {k : String}
    {r : Record} {s : String} (h : s ∈ recordedTokens (dictSet ps k r)) :
    s ∈ recordedTokens ps ∨ recTokenStr r = some s := by
  rcases List.mem_filterMap.mp h with ⟨q, hq, hs⟩
  rcases mem_dictSet hq with h' | h'
  · exact Or.inl (mem_recordedTokens_of_mem h' hs)
  · right
    rw [h'] at hs
    exact hs

theorem mem_recordedTokens_cons_of_tail {q0 : String × Record}
    {ps : Dict String Record} {s : String} (h : s ∈ recordedTokens ps) :
    s ∈ recordedTokens (q0 :: ps) := by
  rcases List.mem_filterMap.mp h with ⟨q, hq, hs⟩
  exact List.mem_filterMap.mpr ⟨q, List.mem_cons_of_mem _ hq, hs⟩

/-- Storing a record whose recorded token is absent from the roster keeps the
recorded tokens pairwise distinct. -/
theorem recordedTokens_dictSet_nodup_fresh {ps : Dict String Record}
    {k : String} {r : Record}
    (hps : (recordedTokens ps).Nodup)
    (hfresh : ∀ s, recTokenStr r = some s → s ∉ recordedTokens ps) :
    (recordedTokens (dictSet ps k r)).Nodup := by
  induction ps with
  | nil =>
      show (recordedTokens [(k, r)]).Nodup
      cases hr : recTokenStr r with
      | none =>
          rw [recordedTokens_cons_none hr, recordedTokens_nil]
          exact List.nodup_nil
      | some s =>
          rw [recordedTokens_cons_some hr, recordedTokens_nil]
          simp
  | cons q0 ps ih =>
      obtain ⟨k0, r0⟩ := q0
      have htail : (recordedTokens ps).Nodup := recordedTokens_cons_tail hps
      by_cases hk : k0 = k
      · have hset : dictSet ((k0, r0) :: ps) k r = (k0, r) :: ps := by
          simp [dictSet, hk]
        rw [hset]
        cases hr : recTokenStr r with
        | none => rw [recordedTokens_cons_none hr]; exact htail
        | some s =>
            rw [recordedTokens_cons_some hr]
            rw [List.nodup_cons]
            refine ⟨?_, htail⟩
            intro hmem
            exact hfresh s hr (mem_recordedTokens_cons_of_tail hmem)
      · have hset : dictSet ((k0, r0) :: ps) k r = (k0, r0) :: dictSet ps k r := by
          simp [dictSet, hk]
        rw [hset]
        have hrec : (recordedTokens (dictSet ps k r)).Nodup :=
          ih htail (fun s hs hmem =>
            hfresh s hs (mem_recordedTokens_cons_of_tail hmem))
        cases hr0 : recTokenStr r0 with
        | none => rw [recordedTokens_cons_none hr0]; exact hrec
        | some m0 =>
            rw [recordedTokens_cons_some hr0]
            rw [List.nodup_cons]
            refine ⟨?_, hrec⟩
            intro hmem
            rcases mem_recordedTokens_dictSet hmem with h' | h'
            · rw [recordedTokens_cons_some hr0] at hps
              exact (List.nodup_cons.mp hps).1 h'
            · exact hfresh m0 h'
                (mem_recordedTokens_of_mem (List.mem_cons_self _ _) hr0)

/-- Replacing a stored record by one recording the same token leaves the
recorded-token list unchanged. -/
theorem recordedTokens_dictSet_eq {ps : Dict String Record} {k : String}
    {p r : Record} (hget : dictGet ps k = some p)
    (hsame : recTokenStr r = recTokenStr p) :
    recordedTokens (dictSet ps k r) = recordedTokens ps := by
  induction ps with
  | nil => simp [dictGet] at hget
  | cons q0 ps ih =>
      obtain ⟨k0, r0⟩ := q0
      by_cases hk : k0 = k
      · have hset : dictSet ((k0, r0) :: ps) k r = (k0, r) :: ps := by
          simp [dictSet, hk]
        have hr0 : r0 = p := by
          simp only [dictGet, if_pos hk] at hget
          injection hget
        subst hr0
        rw [hset]
        cases hr : recTokenStr r0 with
        | none =>
            rw [recordedTokens_cons_none (show recTokenStr ((k0, r) :
                  String × Record).2 = none from hsame.trans hr),
                recordedTokens_cons_none hr]
        | some s =>
            rw [recordedTokens_cons_some (show recTokenStr ((k0, r) :
                  String × Record).2 = some s from hsame.trans hr),
                recordedTokens_cons_some hr]
      · have hset : dictSet ((k0, r0) :: ps) k r = (k0, r0) :: dictSet ps k r := by
          simp [dictSet, hk]
        simp only [dictGet, if_neg hk] at hget
        rw [hset]
        cases hr0 : recTokenStr r0 with
        | none =>
            rw [recordedTokens_cons_none hr0, recordedTokens_cons_none hr0]
            exact ih hget
        | some m0 =>
            rw [recordedTokens_cons_some hr0, recordedTokens_cons_some hr0]
            rw [ih hget]

theorem tokenFieldOk_cases {r : Record} (h : tokenFieldOk r = true) :
    (dictGet r "token" = some Value.vNull ∧ recTokenStr r = none) ∨
    (∃ s : String, dictGet r "token" = some (Value.vStr s) ∧ s ≠ "" ∧
      recTokenStr r = some s) := by
  unfold tokenFieldOk at h
  unfold recTokenStr
  cases hg : dictGet r "token" with
  | none =>
      rw [hg] at h
      simp at h
  | some v =>
      cases v with
      | vNull => exact Or.inl ⟨rfl, rfl⟩
      | vStr s =>
          refine Or.inr ⟨s, rfl, ?_, rfl⟩
          rw [hg] at h
          simpa using h
      | vInt n =>
          rw [hg] at h
          simp at h

theorem rw_attributes_ne_token : ∀ k ∈ rw_attributes, k ≠ "token" := by
  decide

theorem rw_attributes_ne_uid : ∀ k ∈ rw_attributes, k ≠ "uid" := by
  decide

/-! Claim theorems. -/

/-- C7: for every validated principal and every target identifier different
from the principal's own identifier, the update operation fails with the 403
authorization error without mutating any state, and the error message is
"not implemented" when the caller is privileged and "forbidden" otherwise. -/
theorem C7_cross_principal_update_forbidden (st : ServerState)
    (token username : String) (participant : Record) (privileged : Bool)
    (now : Int) (uid pu : Int) (body : Option (List (String × Value)))
    (hres : resolve_token st token now =
      Resolved.ok username participant privileged)
    (hpuid : dictGet participant "uid" = some (Value.vInt pu))
    (hne : uid ≠ pu) :
    set_user st token uid body now =
      (SetUserResult.forbidden
        (if privileged then "not implemented" else "forbidden"), st) := by
  have hcond : dictGet participant "uid" ≠ some (Value.vInt uid) := by
    rw [hpuid]
    intro hcontra
    injection hcontra with hv
    injection hv with hn
    exact hne hn.symm
  rw [set_user_resolved hres]
  unfold set_user_own
  rw [if_pos hcond]

/-- Witness for C7: a non-privileged caller targeting uid 501 instead of
their own 500 receives 403 "forbidden" and the state is unchanged. -/
theorem C7_cross_principal_update_forbidden_witness :
    set_user wState "t1" 501 (some [("name", Value.vStr "X")]) 0 =
      (SetUserResult.forbidden "forbidden", wState) :=
  C7_cross_principal_update_forbidden wState "t1" "alice" wAlice false 0 501
    500 (some [("name", Value.vStr "X")]) (by decide) (by decide) (by decide)

/-- C10: in the update operation the own-identifier check precedes body
parsing and writable-key validation: any target identifier other than the
caller's own yields the 403 authorization error for every body — malformed
(`none`) or with disallowed keys alike — and never the 400 validation
error. -/
theorem C10_authorization_checked_before_body (st : ServerState)
    (token username : String) (participant : Record) (privileged : Bool)
    (now : Int) (uid pu : Int)
    (hres : resolve_token st token now =
      Resolved.ok username participant privileged)
    (hpuid : dictGet participant "uid" = some (Value.vInt pu))
    (hne : uid ≠ pu) :
    (∀ body, set_user st token uid body now =
      (SetUserResult.forbidden
        (if privileged then "not implemented" else "forbidden"), st)) ∧
    (∀ body, (set_user st token uid body now).1 ≠ SetUserResult.invalidJson ∧
      (set_user st token uid body now).1 ≠ SetUserResult.badAttributes) := by
  have hcond : dictGet participant "uid" ≠ some (Value.vInt uid) := by
    rw [hpuid]
    intro hcontra
    injection hcontra with hv
    injection hv with hn
    exact hne hn.symm
  have hmain : ∀ body, set_user st token uid body now =
      (SetUserResult.forbidden
        (if privileged then "not implemented" else "forbidden"), st) := by
    intro body
    rw [set_user_resolved hres]
    unfold set_user_own
    rw [if_pos hcond]
  refine ⟨hmain, fun body => ?_⟩
  rw [hmain body]
  exact ⟨by simp, by simp⟩

/-- Witness for C10: with a malformed body the cross-principal update still
answers 403, and with a disallowed key it does not answer 400. -/
theorem C10_authorization_checked_before_body_witness :
    set_user wState "t1" 501 none 0 =
      (SetUserResult.forbidden "forbidden", wState) ∧
    (set_user wState "t1" 501 (some [("hack", Value.vStr "x")]) 0).1 ≠
      SetUserResult.badAttributes :=
  ⟨(C10_authorization_checked_before_body wState "t1" "alice" wAlice false 0
      501 500 (by decide) (by decide) (by decide)).1 none,
   ((C10_authorization_checked_before_body wState "t1" "alice" wAlice false 0
      501 500 (by decide) (by decide) (by decide)).2
      (some [("hack", Value.vStr "x")])).2⟩

/-- C8: a self-targeted update with any change key outside the writable set
{name, location, department, position, notes} fails with the 400 validation
error leaving the state (records and persistence counter) unchanged, while a
change mapping whose keys all lie in the writable set passes the check and
ends in 304 or 200. -/
theorem C8_writable_attribute_whitelist (st : ServerState)
    (token username : String) (participant : Record) (privileged : Bool)
    (now : Int) (uid : Int)
    (hres : resolve_token st token now =
      Resolved.ok username participant privileged)
    (hpuid : dictGet participant "uid" = some (Value.vInt uid)) :
    (∀ changes : List (String × Value),
      (∃ kv ∈ changes, kv.1 ∉ rw_attributes) →
        set_user st token uid (some changes) now =
          (SetUserResult.badAttributes, st)) ∧
    (∀ changes : List (String × Value),
      (∀ kv ∈ changes, kv.1 ∈ rw_attributes) →
        (set_user st token uid (some changes) now).1 =
          SetUserResult.notModified ∨
        (set_user st token uid (some changes) now).1 = SetUserResult.ok) := by
  have hcond : ¬ dictGet participant "uid" ≠ some (Value.vInt uid) := by
    rw [hpuid]
    exact fun hc => hc rfl
  constructor
  · intro changes hex
    rw [set_user_resolved hres]
    unfold set_user_own
    rw [if_neg hcond]
    dsimp only
    rw [if_pos hex]
  · intro changes hall
    rw [set_user_resolved hres]
    unfold set_user_own
    rw [if_neg hcond]
    dsimp only
    rw [if_neg (fun hex => by
      rcases hex with ⟨kv, hm, hn⟩
      exact hn (hall kv hm))]
    by_cases heq : dictEq (mergeChanges participant changes) participant
    · rw [if_pos heq]
      exact Or.inl rfl
    · rw [if_neg heq]
      exact Or.inr rfl

/-- Witness for C8: a body containing the non-writable key "uid" is rejected
with 400 and no state change, while a body touching only "name" passes the
whitelist check. -/
theorem C8_writable_attribute_whitelist_witness :
    set_user wState "t1" 500 (some [("uid", Value.vInt 9)]) 0 =
      (SetUserResult.badAttributes, wState) ∧
    ((set_user wState "t1" 500 (some [("name", Value.vStr "A")]) 0).1 =
      SetUserResult.notModified ∨
     (set_user wState "t1" 500 (some [("name", Value.vStr "A")]) 0).1 =
      SetUserResult.ok) :=
  ⟨(C8_writable_attribute_whitelist wState "t1" "alice" wAlice false 0 500
      (by decide) (by decide)).1 [("uid", Value.vInt 9)] (by decide),
   (C8_writable_attribute_whitelist wState "t1" "alice" wAlice false 0 500
      (by decide) (by decide)).2 [("name", Value.vStr "A")] (by decide)⟩

/-- C6: a self-targeted update whose merged result equals the current record
attribute-for-attribute answers 304 NotModified and leaves the whole state —
stored record and persistence-write counter included — unchanged. -/
theorem C6_idempotent_update_not_modified (st : ServerState)
    (token username : String) (participant : Record) (privileged : Bool)
    (now : Int) (uid : Int) (changes : List (String × Value))
    (hres : resolve_token st token now =
      Resolved.ok username participant privileged)
    (hpuid : dictGet participant "uid" = some (Value.vInt uid))
    (hkeys : ∀ kv ∈ changes, kv.1 ∈ rw_attributes)
    (heq : dictEq (mergeChanges participant changes) participant) :
    set_user st token uid (some changes) now =
      (SetUserResult.notModified, st) := by
  have hcond : ¬ dictGet participant "uid" ≠ some (Value.vInt uid) := by
    rw [hpuid]
    exact fun hc => hc rfl
  rw [set_user_resolved hres]
  unfold set_user_own
  rw [if_neg hcond]
  dsimp only
  rw [if_neg (fun hex => by
    rcases hex with ⟨kv, hm, hn⟩
    exact hn (hkeys kv hm))]
  rw [if_pos heq]

/-- Witness for C6: resubmitting the current position value yields 304 with
the state unchanged. -/
theorem C6_idempotent_update_not_modified_witness :
    set_user wState "t1" 500 (some [("position", Value.vStr "Intern")]) 0 =
      (SetUserResult.notModified, wState) :=
  C6_idempotent_update_not_modified wState "t1" "alice" wAlice false 0 500
    [("position", Value.vStr "Intern")] (by decide) (by decide) (by decide)
    (by decide)

/-- C2 (claim right, code wrong): the merge guard tests the change KEY against
null instead of the value, so a submitted null value for the existing key
"notes" is assigned rather than removing the key: the update succeeds, the
merged record still binds "notes" (to null), and the owner's subsequent full
self-read still contains the "notes" key instead of omitting it. -/
theorem C2_null_value_assigned_not_removed :
    set_user wState "t1" 500 (some [("notes", Value.vNull)]) 0 =
      (SetUserResult.ok,
       { wState with
           participant_data :=
             [("alice", mergeChanges wAlice [("notes", Value.vNull)])],
           saveCount := 1 }) ∧
    dictGet (mergeChanges wAlice [("notes", Value.vNull)]) "notes" =
      some Value.vNull ∧
    get_user (set_user wState "t1" 500 (some [("notes", Value.vNull)]) 0).2
        "t1" 500 0 =
      GetUserResult.found
        (projectKeys (mergeChanges wAlice [("notes", Value.vNull)])
          (attributes_public ++ ["notes"])) ∧
    dictGet
        (projectKeys (mergeChanges wAlice [("notes", Value.vNull)])
          (attributes_public ++ ["notes"])) "notes" = some Value.vNull := by
  decide

/-- C3 counterexample: a token issued at time 0 carries expiry 900, and at
now = 900 — which is NOT strictly less than issuance + TTL — validation still
succeeds, contradicting the claimed strict window. -/
theorem C3_counterexample_valid_at_expiry :
    (get_token wState "alice" "h" "tok2" 0).1 =
      TokenResult.issued "tok2" 500 900 ∧
    resolve_token (get_token wState "alice" "h" "tok2" 0).2 "tok2" 900 =
      Resolved.ok "alice" (dictSet wAlice "token" (Value.vStr "tok2"))
        false ∧
    ¬ ((900 : Int) < 0 + ACCESS_TOKEN_LIFETIME) := by
  decide

/-- C3 (amended): validation of a token issued at time t succeeds exactly
while the current time is ≤ t + 900 (the recorded expiry); strictly after
the expiry it fails with the authorization error, and the expired entry is
not purged from the token table. -/
theorem C3_token_validity_window (st st' : ServerState)
    (username password_hash new_token : String) (uid exp t : Int)
    (hget : get_token st username password_hash new_token t =
      (TokenResult.issued new_token uid exp, st')) :
    exp = t + ACCESS_TOKEN_LIFETIME ∧
    (∀ now, now ≤ t + ACCESS_TOKEN_LIFETIME →
      resolve_token st' new_token now ≠ Resolved.badToken) ∧
    (∀ now, t + ACCESS_TOKEN_LIFETIME < now →
      resolve_token st' new_token now = Resolved.badToken ∧
      dictGet st'.access_tokens new_token ≠ none) := by
  rcases get_token_issued_inv hget with
    ⟨p, hp, hpw, htok, huid, hexp, hemp, hpd, htoks, hsave⟩
  refine ⟨hexp, ?_, ?_⟩
  · intro now hnow
    unfold resolve_token
    rw [htoks, dictGet_dictSet_self]
    dsimp only
    rw [if_neg (not_lt.mpr hnow)]
    rw [hpd, dictGet_dictSet_self]
    simp
  · intro now hnow
    constructor
    · unfold resolve_token
      rw [htoks, dictGet_dictSet_self]
      dsimp only
      rw [if_pos hnow]
    · rw [htoks, dictGet_dictSet_self]
      simp

/-- Witness for C3 (amended): the concrete token issued at time 0 still
validates at time 900 and no longer validates at time 901. -/
theorem C3_token_validity_window_witness :
    resolve_token (get_token wState "alice" "h" "tok2" 0).2 "tok2" 900 ≠
      Resolved.badToken ∧
    resolve_token (get_token wState "alice" "h" "tok2" 0).2 "tok2" 901 =
      Resolved.badToken :=
  ⟨(C3_token_validity_window wState
      (get_token wState "alice" "h" "tok2" 0).2 "alice" "h" "tok2" 500 900 0
      (by decide)).2.1 900 (by decide),
   ((C3_token_validity_window wState
      (get_token wState "alice" "h" "tok2" 0).2 "alice" "h" "tok2" 500 900 0
      (by decide)).2.2 901 (by decide)).1⟩

/-- C1: the privileged flag is the pure test "position lowercased equals
admin" on the current record — true iff that equality holds — and is
recomputed on every guarded request: immediately after a self-update setting
position to any string s, resolving the same token reports privileged exactly
when lower(s) = "admin", with no stored flag involved. -/
theorem C1_privilege_recomputed_each_check (st : ServerState)
    (token username : String) (participant : Record) (privileged : Bool)
    (now : Int) (uid : Int) (s : String) (res : SetUserResult)
    (st' : ServerState)
    (hres : resolve_token st token now =
      Resolved.ok username participant privileged)
    (hpuid : dictGet participant "uid" = some (Value.vInt uid))
    (hset : set_user st token uid (some [("position", Value.vStr s)]) now =
      (res, st')) :
    (∀ r : Record, ∀ pos : String,
      dictGet r "position" = some (Value.vStr pos) →
        (has_admin_privileges r = true ↔ pyLower pos = "admin")) ∧
    ∃ p' : Record,
      resolve_token st' token now =
        Resolved.ok username p' (decide (pyLower s = "admin")) ∧
      dictGet p' "position" = some (Value.vStr s) := by
  have hiff : ∀ r : Record, ∀ pos : String,
      dictGet r "position" = some (Value.vStr pos) →
        (has_admin_privileges r = true ↔ pyLower pos = "admin") := by
    intro r pos hpos
    unfold has_admin_privileges
    rw [hpos]
    simp
  refine ⟨hiff, ?_⟩
  rcases resolve_token_ok_inv hres with ⟨info, hg, hu, hexp, hpd, hb⟩
  have hcond : ¬ dictGet participant "uid" ≠ some (Value.vInt uid) := by
    rw [hpuid]
    exact fun hc => hc rfl
  rw [set_user_resolved hres] at hset
  unfold set_user_own at hset
  rw [if_neg hcond] at hset
  dsimp only at hset
  rw [if_neg (fun hex => by
    rcases hex with ⟨kv, hm, hn⟩
    rw [List.mem_singleton] at hm
    rw [hm] at hn
    exact hn (show "position" ∈ rw_attributes by decide))] at hset
  have hentry : mergeChanges participant [("position", Value.vStr s)] =
      dictSet participant "position" (Value.vStr s) :=
    mergeChanges_singleton participant "position" (Value.vStr s)
  by_cases heq : dictEq (mergeChanges participant [("position", Value.vStr s)])
      participant
  · rw [if_pos heq] at hset
    have hst : st = st' := congrArg Prod.snd hset
    subst hst
    have hposEq : dictGet participant "position" = some (Value.vStr s) := by
      have h := dictEq_get heq "position"
      rw [hentry, dictGet_dictSet_self] at h
      exact h.symm
    have hbval : privileged = decide (pyLower s = "admin") := by
      rw [hb]
      unfold has_admin_privileges
      rw [hposEq]
    refine ⟨participant, ?_, hposEq⟩
    rw [← hbval]
    exact hres
  · rw [if_neg heq] at hset
    have hst : ({ st with
        participant_data := dictSet st.participant_data username
          (mergeChanges participant [("position", Value.vStr s)]),
        saveCount := st.saveCount + 1 } : ServerState) = st' :=
      congrArg Prod.snd hset
    subst hst
    have hentryPos : dictGet
        (mergeChanges participant [("position", Value.vStr s)]) "position" =
        some (Value.vStr s) := by
      rw [hentry, dictGet_dictSet_self]
    refine ⟨mergeChanges participant [("position", Value.vStr s)], ?_,
      hentryPos⟩
    unfold resolve_token
    dsimp only
    rw [hg]
    dsimp only
    rw [if_neg hexp, hu, dictGet_dictSet_self]
    dsimp only
    unfold has_admin_privileges
    rw [hentryPos]

/-- Witness for C1: after alice sets her position to "ADMIN", the next
resolution of her token reports the privileged flag as lower("ADMIN") =
"admin", i.e. true. -/
theorem C1_privilege_recomputed_each_check_witness :
    (∀ r : Record, ∀ pos : String,
      dictGet r "position" = some (Value.vStr pos) →
        (has_admin_privileges r = true ↔ pyLower pos = "admin")) ∧
    ∃ p' : Record,
      resolve_token
          (set_user wState "t1" 500
            (some [("position", Value.vStr "ADMIN")]) 0).2 "t1" 0 =
        Resolved.ok "alice" p' (decide (pyLower "ADMIN" = "admin")) ∧
      dictGet p' "position" = some (Value.vStr "ADMIN") :=
  C1_privilege_recomputed_each_check wState "t1" "alice" wAlice false 0 500
    "ADMIN" SetUserResult.ok
    (set_user wState "t1" 500 (some [("position", Value.vStr "ADMIN")]) 0).2
    (by decide) (by decide) (by decide)

/-- C5 counterexample: the self-targeted lookup answers with the public
attribute subset plus notes, not the full record — the stored record binds
"phone" but the returned entry omits it. -/
theorem C5_counterexample_self_read_omits_phone :
    get_user wState "t1" 500 0 =
      GetUserResult.found
        (projectKeys wAlice (attributes_public ++ ["notes"])) ∧
    dictGet (projectKeys wAlice (attributes_public ++ ["notes"])) "phone" =
      none ∧
    dictGet wAlice "phone" = some (Value.vStr "55590210") := by
  decide

/-- C5 (amended): the single-record lookup, for a validated principal: a
target equal to the principal's own identifier returns the record projected
to the fixed public subset plus notes (not the full record — phone, password
and token are omitted); a target naming a staff record returns the public
subset, with notes exactly when the caller is privileged; any other target
fails with the not-found error. -/
theorem C5_get_user_branch_behaviour (st : ServerState)
    (token username : String) (participant : Record) (privileged : Bool)
    (now : Int) (uid pu : Int)
    (hres : resolve_token st token now =
      Resolved.ok username participant privileged)
    (hpuid : dictGet participant "uid" = some (Value.vInt pu))
    (hempUid : ∀ kv ∈ st.employee_data, (dictGet kv.2 "uid").isSome = true)
    (hempNotes : ∀ kv ∈ st.employee_data,
      (dictGet kv.2 "notes").isSome = true) :
    (pu = uid →
      ∃ e : Record, get_user st token uid now = GetUserResult.found e ∧
        ∀ k, dictGet e k =
          if k ∈ attributes_public ++ ["notes"] then dictGet participant k
          else none) ∧
    (pu ≠ uid → ∀ emp, dictGet st.employee_data uid = some emp →
      ∃ e : Record, get_user st token uid now = GetUserResult.found e ∧
        ∀ k, dictGet e k =
          if k ∈ attributes_public ∨ (privileged = true ∧ k = "notes") then
            dictGet emp k
          else none) ∧
    (pu ≠ uid → dictGet st.employee_data uid = none →
      get_user st token uid now = GetUserResult.notFound) := by
  rw [get_user_resolved hres]
  unfold get_user_entry
  refine ⟨?_, ?_, ?_⟩
  · intro he
    subst he
    rw [if_pos hpuid]
    dsimp only
    rw [projectKeys_isEmpty_false
      (show "uid" ∈ attributes_public ++ ["notes"] by decide) hpuid]
    rw [if_neg (by simp)]
    refine ⟨projectKeys participant (attributes_public ++ ["notes"]), rfl,
      fun k => ?_⟩
    exact dictGet_projectKeys participant (attributes_public ++ ["notes"]) k
  · intro hne emp hemp
    have hc : ¬ dictGet participant "uid" = some (Value.vInt uid) := by
      rw [hpuid]
      intro h
      injection h with hv
      injection hv with hn
      exact hne hn
    rw [if_neg hc, hemp]
    dsimp only
    have hmem : (uid, emp) ∈ st.employee_data := dictGet_eq_some_mem hemp
    obtain ⟨vu, hvu⟩ := Option.isSome_iff_exists.mp (hempUid (uid, emp) hmem)
    have hvu' : dictGet emp "uid" = some vu := hvu
    cases hpriv : privileged with
    | false =>
        rw [if_neg (show ¬ (false = true) by simp)]
        rw [projectKeys_isEmpty_false
          (show "uid" ∈ attributes_public by decide) hvu']
        rw [if_neg (by simp)]
        refine ⟨projectKeys emp attributes_public, rfl, fun k => ?_⟩
        rw [dictGet_projectKeys]
        by_cases hk : k ∈ attributes_public
        · rw [if_pos hk, if_pos (Or.inl hk)]
        · rw [if_neg hk, if_neg (by
            rintro (h | ⟨hf, _⟩)
            · exact hk h
            · simp at hf)]
    | true =>
        rw [if_pos (show true = true from rfl)]
        obtain ⟨vn, hvn⟩ :=
          Option.isSome_iff_exists.mp (hempNotes (uid, emp) hmem)
        have hvn' : dictGet emp "notes" = some vn := hvn
        rw [hvn']
        dsimp only
        rw [dictSet_isEmpty_false]
        rw [if_neg (by simp)]
        refine ⟨dictSet (projectKeys emp attributes_public) "notes" vn, rfl,
          fun k => ?_⟩
        by_cases hk : k = "notes"
        · subst hk
          rw [dictGet_dictSet_self,
            if_pos (Or.inr ⟨rfl, rfl⟩), hvn']
        · rw [dictGet_dictSet_ne _ _ hk, dictGet_projectKeys]
          by_cases hk2 : k ∈ attributes_public
          · rw [if_pos hk2, if_pos (Or.inl hk2)]
          · rw [if_neg hk2, if_neg (by
              rintro (h | ⟨_, hf⟩)
              · exact hk2 h
              · exact hk hf)]
  · intro hne hnone
    have hc : ¬ dictGet participant "uid" = some (Value.vInt uid) := by
      rw [hpuid]
      intro h
      injection h with hv
      injection hv with hn
      exact hne hn
    rw [if_neg hc, hnone]
    dsimp only
    rfl

/-- Witness for C5 (amended): alice's self-lookup returns exactly the public
subset plus notes of her stored record. -/
theorem C5_get_user_branch_behaviour_witness :
    ∃ e : Record, get_user wState "t1" 500 0 = GetUserResult.found e ∧
      ∀ k, dictGet e k =
        if k ∈ attributes_public ++ ["notes"] then dictGet wAlice k
        else none :=
  (C5_get_user_branch_behaviour wState "t1" "alice" wAlice false 0 500 500
    (by decide) (by decide) (by decide) (by decide)).1 rfl

theorem participantUids_nil : participantUids [] = [] := rfl

theorem participantUids_cons_none {q0 : String × Record}
    {ps : Dict String Record} (h : uidOf q0.2 = none) :
    participantUids (q0 :: ps) = participantUids ps := by
  unfold participantUids
  exact @List.filterMap_cons_none _ _ (fun p => uidOf p.2) q0 ps h

theorem participantUids_cons_some {q0 : String × Record}
    {ps : Dict String Record} {n : Int} (h : uidOf q0.2 = some n) :
    participantUids (q0 :: ps) = n :: participantUids ps := by
  unfold participantUids
  exact @List.filterMap_cons_some _ _ (fun p => uidOf p.2) q0 ps n h

theorem mem_participantUids_of_mem {ps : Dict String Record}
    {q : String × Record} (h : q ∈ ps) {n : Int}
    (hn : uidOf q.2 = some n) : n ∈ participantUids ps :=
  List.mem_filterMap.mpr ⟨q, h, hn⟩

theorem mem_participantUids {ps : Dict String Record} {n : Int}
    (h : n ∈ participantUids ps) :
    ∃ q ∈ ps, uidOf q.2 = some n := by
  rcases List.mem_filterMap.mp h with ⟨q, hq, hn⟩
  exact ⟨q, hq, hn⟩

theorem participantUids_cons_tail {q0 : String × Record}
    {ps : Dict String Record} (h : (participantUids (q0 :: ps)).Nodup) :
    (participantUids ps).Nodup := by
  cases hq0 : uidOf q0.2 with
  | none => rwa [participantUids_cons_none hq0] at h
  | some n0 =>
      rw [participantUids_cons_some hq0] at h
      exact (List.nodup_cons.mp h).2

theorem mem_participantUids_cons_of_tail {q0 : String × Record}
    {ps : Dict String Record} {n : Int} (h : n ∈ participantUids ps) :
    n ∈ participantUids (q0 :: ps) := by
  rcases List.mem_filterMap.mp h with ⟨q, hq, hn⟩
  exact List.mem_filterMap.mpr ⟨q, List.mem_cons_of_mem _ hq, hn⟩

theorem mem_participantUids_dictSet {ps : Dict String Record} {k : String}
    {r : Record} {n : Int} (h : n ∈ participantUids (dictSet ps k r)) :
    n ∈ participantUids ps ∨ uidOf r = some n := by
  rcases List.mem_filterMap.mp h with ⟨q, hq, hn⟩
  rcases mem_dictSet hq with h' | h'
  · exact Or.inl (mem_participantUids_of_mem h' hn)
  · right
    rw [h'] at hn
    exact hn

/-- Storing a record whose uid does not occur in the roster keeps the stored
uids pairwise distinct. -/
theorem participantUids_dictSet_nodup_fresh {ps : Dict String Record}
    {k : String} {r : Record}
    (hps : (participantUids ps).Nodup)
    (hfresh : ∀ n, uidOf r = some n → n ∉ participantUids ps) :
    (participantUids (dictSet ps k r)).Nodup := by
  induction ps with
  | nil =>
      show (participantUids [(k, r)]).Nodup
      cases hr : uidOf r with
      | none =>
          rw [participantUids_cons_none hr, participantUids_nil]
          exact List.nodup_nil
      | some n =>
          rw [participantUids_cons_some hr, participantUids_nil]
          simp
  | cons q0 ps ih =>
      obtain ⟨k0, r0⟩ := q0
      have htail : (participantUids ps).Nodup := participantUids_cons_tail hps
      by_cases hk : k0 = k
      · have hset : dictSet ((k0, r0) :: ps) k r = (k0, r) :: ps := by
          simp [dictSet, hk]
        rw [hset]
        cases hr : uidOf r with
        | none => rw [participantUids_cons_none hr]; exact htail
        | some n =>
            rw [participantUids_cons_some hr]
            rw [List.nodup_cons]
            refine ⟨?_, htail⟩
            intro hmem
            exact hfresh n hr (mem_participantUids_cons_of_tail hmem)
      · have hset : dictSet ((k0, r0) :: ps) k r =
            (k0, r0) :: dictSet ps k r := by
          simp [dictSet, hk]
        rw [hset]
        have hrec : (participantUids (dictSet ps k r)).Nodup :=
          ih htail (fun n hn hmem =>
            hfresh n hn (mem_participantUids_cons_of_tail hmem))
        cases hr0 : uidOf r0 with
        | none => rw [participantUids_cons_none hr0]; exact hrec
        | some n0 =>
            rw [participantUids_cons_some hr0]
            rw [List.nodup_cons]
            refine ⟨?_, hrec⟩
            intro hmem
            rcases mem_participantUids_dictSet hmem with h' | h'
            · rw [participantUids_cons_some hr0] at hps
              exact (List.nodup_cons.mp hps).1 h'
            · exact hfresh n0 h'
                (mem_participantUids_of_mem (List.mem_cons_self _ _) hr0)

theorem uidOf_mkParticipant (uid : Int) (u pw : String) :
    uidOf (mkParticipant uid u pw) = some uid := rfl

/-- Invariant of the participant-loading loop: starting from an accumulator
whose uids are pairwise distinct and lie in [boundary, uid0), the loop
produces a roster whose uids are pairwise distinct and lie in
[boundary, uid0 + number of remaining rows). -/
theorem load_participants_aux_inv (rows : List (String × String))
    (uid0 : Int) (acc : Dict String Record)
    (hacc : ∀ p ∈ acc, ∃ n : Int, uidOf p.2 = some n ∧
        MAX_PARTICIPANT_UID ≤ n ∧ n < uid0)
    (hnd : (participantUids acc).Nodup)
    (h500 : MAX_PARTICIPANT_UID ≤ uid0) :
    (∀ p ∈ load_participants_aux rows uid0 acc, ∃ n : Int,
        uidOf p.2 = some n ∧ MAX_PARTICIPANT_UID ≤ n ∧
        n < uid0 + rows.length) ∧
    (participantUids (load_participants_aux rows uid0 acc)).Nodup := by
  induction rows generalizing uid0 acc with
  | nil =>
      constructor
      · intro p hp
        rcases hacc p hp with ⟨n, h1, h2, h3⟩
        exact ⟨n, h1, h2, by simpa using h3⟩
      · exact hnd
  | cons row rows ih =>
      obtain ⟨u, pw⟩ := row
      have hstep : load_participants_aux ((u, pw) :: rows) uid0 acc =
          load_participants_aux rows (uid0 + 1)
            (dictSet acc (pyLower (pyStrip u))
              (mkParticipant uid0 (pyLower (pyStrip u)) pw)) := rfl
      rw [hstep]
      have hacc' : ∀ p ∈ dictSet acc (pyLower (pyStrip u))
          (mkParticipant uid0 (pyLower (pyStrip u)) pw), ∃ n : Int,
          uidOf p.2 = some n ∧ MAX_PARTICIPANT_UID ≤ n ∧ n < uid0 + 1 := by
        intro p hp
        rcases mem_dictSet hp with h' | h'
        · rcases hacc p h' with ⟨n, h1, h2, h3⟩
          exact ⟨n, h1, h2, by omega⟩
        · refine ⟨uid0, ?_, h500, by omega⟩
          rw [h']
          exact uidOf_mkParticipant uid0 (pyLower (pyStrip u)) pw
      have hnd' : (participantUids (dictSet acc (pyLower (pyStrip u))
          (mkParticipant uid0 (pyLower (pyStrip u)) pw))).Nodup := by
        apply participantUids_dictSet_nodup_fresh hnd
        intro n hn hmem
        rw [uidOf_mkParticipant] at hn
        injection hn with hn
        subst hn
        rcases mem_participantUids hmem with ⟨q, hq, hqn⟩
        rcases hacc q hq with ⟨m, hm1, hm2, hm3⟩
        rw [hqn] at hm1
        injection hm1 with hm1
        omega
      rcases ih (uid0 + 1) _ hacc' hnd' (by omega) with ⟨hbound, hnodup⟩
      constructor
      · intro p hp
        rcases hbound p hp with ⟨n, h1, h2, h3⟩
        refine ⟨n, h1, h2, ?_⟩
        simp only [List.length_cons]
        push_cast at h3 ⊢
        omega
      · exact hnodup

/-- C9 counterexample: loading a single participant row assigns uid 500,
which equals the boundary constant instead of exceeding it strictly. -/
theorem C9_counterexample_first_uid_at_boundary :
    load_participants [("alice", "h")] =
      [("alice", mkParticipant 500 "alice" "h")] ∧
    dictGet (mkParticipant 500 "alice" "h") "uid" =
      some (Value.vInt 500) ∧
    ¬ ((500 : Int) > MAX_PARTICIPANT_UID) := by
  decide

/-- C9 (amended): participant identifiers are assigned sequentially in
file-read order starting AT the boundary constant 500 (the first row gets
500 itself), so every stored participant's identifier n satisfies
500 ≤ n < 500 + number of rows, and the stored identifiers are pairwise
distinct. -/
theorem C9_sequential_uids_unique (rows : List (String × String)) :
    (∀ p ∈ load_participants rows, ∃ n : Int,
        uidOf p.2 = some n ∧ MAX_PARTICIPANT_UID ≤ n ∧
        n < MAX_PARTICIPANT_UID + rows.length) ∧
    (participantUids (load_participants rows)).Nodup := by
  unfold load_participants
  exact load_participants_aux_inv rows MAX_PARTICIPANT_UID []
    (by intro p hp; simp at hp) List.nodup_nil (le_refl _)

/-- Both error paths and the mutation path of the update handler preserve the
token-table invariant: the merge may touch only writable attributes, never
the token field, and the token table itself is untouched. -/
theorem set_user_preserves_token_invariant (st : ServerState)
    (hinv : token_invariant st) (tok : String) (uid2 : Int)
    (body : Option (List (String × Value))) (now2 : Int) :
    token_invariant (set_user st tok uid2 body now2).2 := by
  cases hres2 : resolve_token st tok now2 with
  | badToken =>
      have h : set_user st tok uid2 body now2 =
          (SetUserResult.badToken, st) := by
        unfold set_user
        rw [hres2]
      rw [h]
      exact hinv
  | crash =>
      have h : set_user st tok uid2 body now2 =
          (SetUserResult.crash, st) := by
        unfold set_user
        rw [hres2]
      rw [h]
      exact hinv
  | ok username2 participant2 privileged2 =>
      rw [set_user_resolved hres2]
      unfold set_user_own
      by_cases hcond : dictGet participant2 "uid" ≠ some (Value.vInt uid2)
      · rw [if_pos hcond]
        exact hinv
      · rw [if_neg hcond]
        cases body with
        | none => exact hinv
        | some changes =>
            dsimp only
            by_cases hbad : ∃ kv ∈ changes, kv.1 ∉ rw_attributes
            · rw [if_pos hbad]
              exact hinv
            · rw [if_neg hbad]
              by_cases heq : dictEq (mergeChanges participant2 changes)
                  participant2
              · rw [if_pos heq]
                exact hinv
              · rw [if_neg heq]
                obtain ⟨⟨hkeys, hfieldOk, hndTok⟩, hiff1, hiff2⟩ := hinv
                rcases resolve_token_ok_inv hres2 with
                  ⟨info2, hg2, hu2, hexp2, hpd2, hb2⟩
                have hall : ∀ kv ∈ changes, kv.1 ∈ rw_attributes := by
                  intro kv hm
                  by_contra hn
                  exact hbad ⟨kv, hm, hn⟩
                have htokEq : dictGet (mergeChanges participant2 changes)
                    "token" = dictGet participant2 "token" :=
                  mergeChanges_get_of_not_key _ _ _
                    (fun kv hm => rw_attributes_ne_token kv.1 (hall kv hm))
                have hrtsEq : recTokenStr (mergeChanges participant2 changes) =
                    recTokenStr participant2 := by
                  unfold recTokenStr
                  rw [htokEq]
                have hOkEq : tokenFieldOk (mergeChanges participant2 changes) =
                    tokenFieldOk participant2 := by
                  unfold tokenFieldOk
                  rw [htokEq]
                refine ⟨⟨?_, ?_, ?_⟩, ?_, ?_⟩
                · dsimp only
                  exact keysNodup_dictSet _ _ hkeys
                · dsimp only
                  intro q hq
                  rcases mem_dictSet hq with h' | h'
                  · exact hfieldOk q h'
                  · rw [h']
                    show tokenFieldOk (mergeChanges participant2 changes) = true
                    rw [hOkEq]
                    exact hfieldOk _ (dictGet_eq_some_mem hpd2)
                · dsimp only
                  rw [recordedTokens_dictSet_eq hpd2 hrtsEq]
                  exact hndTok
                · dsimp only
                  intro tk htk
                  rcases hiff1 tk htk with ⟨q, hq, hqs⟩
                  by_cases hqu : q.1 = username2
                  · have hqpd : dictGet st.participant_data q.1 = some q.2 :=
                      dictGet_of_mem_nodup hkeys (by
                        rw [show (q.1, q.2) = q from rfl]
                        exact hq)
                    rw [hqu, hpd2] at hqpd
                    injection hqpd with hqpd
                    refine ⟨(username2, mergeChanges participant2 changes),
                      self_mem_dictSet _ _ _, ?_⟩
                    show recTokenStr (mergeChanges participant2 changes) =
                      some tk.1
                    rw [hrtsEq, hqpd]
                    exact hqs
                  · exact ⟨q, mem_dictSet_of_ne _ _ hq hqu, hqs⟩
                · dsimp only
                  intro q hq
                  rw [mem_dictSet_iff hkeys hpd2] at hq
                  rcases hq with ⟨hqin, hqne⟩ | hqeq
                  · exact hiff2 q hqin
                  · rw [hqeq]
                    show (recTokenStr (mergeChanges participant2 changes)).all
                      (fun s => dictHas st.access_tokens s) = true
                    rw [hrtsEq]
                    exact hiff2 _ (dictGet_eq_some_mem hpd2)

/-- C4: at most one valid token per participant. -/
theorem C4_single_active_token (st st' : ServerState)
    (username password_hash new_token : String) (uid exp now : Int)
    (hinv : token_invariant st)
    (hget : get_token st username password_hash new_token now =
      (TokenResult.issued new_token uid exp, st'))
    (hfresh : dictHas st.access_tokens new_token = false)
    (hne : new_token ≠ "") :
    (∀ t1 : String, ∀ p0 : Record,
      dictGet st.participant_data (pyLower (pyStrip username)) = some p0 →
      recTokenStr p0 = some t1 →
      dictGet st'.access_tokens t1 = none ∧
      ∀ n : Int, resolve_token st' t1 n = Resolved.badToken) ∧
    token_invariant st' ∧
    (∀ tok : String, ∀ uid2 : Int,
      ∀ body : Option (List (String × Value)), ∀ now2 : Int,
      token_invariant (set_user st tok uid2 body now2).2) := by
  have hinv0 := hinv
  obtain ⟨⟨hkeys, hfieldOk, hndTok⟩, hiff1, hiff2⟩ := hinv
  rcases get_token_issued_inv hget with
    ⟨p, hp, hpw, _, _, _, hemp', hpd', htoks', hsave'⟩
  have hmemp : (pyLower (pyStrip username), p) ∈ st.participant_data :=
    dictGet_eq_some_mem hp
  have hOk : tokenFieldOk p = true := hfieldOk _ hmemp
  have hrts1 : recTokenStr (dictSet p "token" (Value.vStr new_token)) =
      some new_token := by
    unfold recTokenStr
    rw [dictGet_dictSet_self]
  have hOk1 : tokenFieldOk (dictSet p "token" (Value.vStr new_token)) =
      true := by
    unfold tokenFieldOk
    rw [dictGet_dictSet_self]
    simpa using hne
  -- shape of the new token table, by the two cases of the old token field
  rcases tokenFieldOk_cases hOk with ⟨hnull, hrts⟩ | ⟨s0, hstr, hs0ne, hrts⟩
  · -- no previous token: nothing is deleted
    have htoksN : st'.access_tokens =
        dictSet st.access_tokens new_token
          ⟨pyLower (pyStrip username), recUid p,
            now + ACCESS_TOKEN_LIFETIME⟩ := by
      rw [htoks', hnull]
      rfl
    refine ⟨?_, ⟨⟨?_, ?_, ?_⟩, ?_, ?_⟩, ?_⟩
    · -- part (a) vacuous: no previous token recorded
      intro t1 p0 hp0 ht1
      rw [hp] at hp0
      injection hp0 with hp0
      rw [← hp0] at ht1
      rw [hrts] at ht1
      exact absurd ht1 (by simp)
    · -- keysNodup
      rw [hpd']
      exact keysNodup_dictSet _ _ hkeys
    · -- tokenFieldOk
      intro q hq
      rw [hpd'] at hq
      rcases mem_dictSet hq with h' | h'
      · exact hfieldOk q h'
      · rw [h']
        exact hOk1
    · -- recordedTokens nodup
      rw [hpd']
      apply recordedTokens_dictSet_nodup_fresh hndTok
      intro s hs hmem
      rw [hrts1] at hs
      injection hs with hs
      subst hs
      rcases mem_recordedTokens hmem with ⟨q, hq, hqs⟩
      have := hiff2 q hq
      rw [hqs] at this
      simp at this
      rw [this] at hfresh
      exact absurd hfresh (by simp)
    · -- iff, direction table → recorded
      intro tk htk
      rw [htoksN] at htk
      rcases mem_dictSet htk with h' | h'
      · rcases hiff1 tk h' with ⟨q, hq, hqs⟩
        by_cases hqu : q.1 = pyLower (pyStrip username)
        · exfalso
          have hqpd : dictGet st.participant_data q.1 = some q.2 :=
            dictGet_of_mem_nodup hkeys (by
              rw [show (q.1, q.2) = q from rfl]
              exact hq)
          rw [hqu, hp] at hqpd
          injection hqpd with hqpd
          rw [← hqpd] at hqs
          rw [hrts] at hqs
          exact absurd hqs (by simp)
        · refine ⟨q, ?_, hqs⟩
          rw [hpd']
          exact mem_dictSet_of_ne _ _ hq hqu
      · refine ⟨(pyLower (pyStrip username),
          dictSet p "token" (Value.vStr new_token)), ?_, ?_⟩
        · rw [hpd']
          exact self_mem_dictSet _ _ _
        · rw [hrts1, h']
    · -- iff, direction recorded → table
      intro q hq
      rw [hpd'] at hq
      rw [mem_dictSet_iff hkeys hp] at hq
      rcases hq with ⟨hqin, hqne⟩ | hqeq
      · cases hqs : recTokenStr q.2 with
        | none => simp
        | some s =>
            have hold := hiff2 q hqin
            rw [hqs] at hold
            simp at hold
            have hsnew : s ≠ new_token := by
              intro e
              rw [e] at hold
              rw [hold] at hfresh
              exact absurd hfresh (by simp)
            simp only [Option.all_some]
            unfold dictHas
            rw [htoksN, dictGet_dictSet_ne _ _ hsnew]
            unfold dictHas at hold
            exact hold
      · rw [hqeq]
        dsimp only
        rw [hrts1]
        simp only [Option.all_some]
        unfold dictHas
        rw [htoksN, dictGet_dictSet_self]
        rfl
    · -- set_user preserves the invariant
      exact set_user_preserves_token_invariant st hinv0
  · -- previous token s0 deleted from the table
    have htoksS : st'.access_tokens =
        dictSet (dictDel st.access_tokens s0) new_token
          ⟨pyLower (pyStrip username), recUid p,
            now + ACCESS_TOKEN_LIFETIME⟩ := by
      rw [htoks', hstr]
      unfold truthyToken
      dsimp only
      rw [if_neg hs0ne]
    have hs0table : dictHas st.access_tokens s0 = true := by
      have := hiff2 _ hmemp
      rw [hrts] at this
      simpa using this
    have hs0new : s0 ≠ new_token := by
      intro e
      rw [e] at hs0table
      rw [hs0table] at hfresh
      exact absurd hfresh (by simp)
    refine ⟨?_, ⟨⟨?_, ?_, ?_⟩, ?_, ?_⟩, ?_⟩
    · -- part (a): the previous token is gone and no longer validates
      intro t1 p0 hp0 ht1
      rw [hp] at hp0
      injection hp0 with hp0
      rw [← hp0] at ht1
      rw [hrts] at ht1
      injection ht1 with ht1
      subst ht1
      have hgone : dictGet st'.access_tokens s0 = none := by
        rw [htoksS, dictGet_dictSet_ne _ _ hs0new, dictGet_dictDel_self]
      refine ⟨hgone, fun n => ?_⟩
      unfold resolve_token
      rw [hgone]
    · rw [hpd']
      exact keysNodup_dictSet _ _ hkeys
    · intro q hq
      rw [hpd'] at hq
      rcases mem_dictSet hq with h' | h'
      · exact hfieldOk q h'
      · rw [h']
        exact hOk1
    · rw [hpd']
      apply recordedTokens_dictSet_nodup_fresh hndTok
      intro s hs hmem
      rw [hrts1] at hs
      injection hs with hs
      subst hs
      rcases mem_recordedTokens hmem with ⟨q, hq, hqs⟩
      have := hiff2 q hq
      rw [hqs] at this
      simp at this
      rw [this] at hfresh
      exact absurd hfresh (by simp)
    · -- iff, direction table → recorded
      intro tk htk
      rw [htoksS] at htk
      rcases mem_dictSet htk with h' | h'
      · have h'' := mem_dictDel.mp h'
        rcases hiff1 tk h''.1 with ⟨q, hq, hqs⟩
        by_cases hqu : q.1 = pyLower (pyStrip username)
        · exfalso
          have hqpd : dictGet st.participant_data q.1 = some q.2 :=
            dictGet_of_mem_nodup hkeys (by
              rw [show (q.1, q.2) = q from rfl]
              exact hq)
          rw [hqu, hp] at hqpd
          injection hqpd with hqpd
          rw [← hqpd] at hqs
          rw [hrts] at hqs
          injection hqs with hqs
          exact h''.2 hqs.symm
        · refine ⟨q, ?_, hqs⟩
          rw [hpd']
          exact mem_dictSet_of_ne _ _ hq hqu
      · refine ⟨(pyLower (pyStrip username),
          dictSet p "token" (Value.vStr new_token)), ?_, ?_⟩
        · rw [hpd']
          exact self_mem_dictSet _ _ _
        · rw [hrts1, h']
    · -- iff, direction recorded → table
      intro q hq
      rw [hpd'] at hq
      rw [mem_dictSet_iff hkeys hp] at hq
      rcases hq with ⟨hqin, hqne⟩ | hqeq
      · cases hqs : recTokenStr q.2 with
        | none => simp
        | some s =>
            have hold := hiff2 q hqin
            rw [hqs] at hold
            simp at hold
            have hsnew : s ≠ new_token := by
              intro e
              rw [e] at hold
              rw [hold] at hfresh
              exact absurd hfresh (by simp)
            have hss0 : s ≠ s0 := by
              intro e
              subst e
              exact recorded_token_unique hndTok hqin hmemp hqne hqs hrts
            simp only [Option.all_some]
            unfold dictHas
            rw [htoksS, dictGet_dictSet_ne _ _ hsnew,
              dictGet_dictDel_ne _ hss0]
            unfold dictHas at hold
            exact hold
      · rw [hqeq]
        dsimp only
        rw [hrts1]
        simp only [Option.all_some]
        unfold dictHas
        rw [htoksS, dictGet_dictSet_self]
        rfl
    · exact set_user_preserves_token_invariant st hinv0

/-- Witness for C4: issuing alice a fresh token "tok2" removes her previous
token "t1" from the table, "t1" no longer validates, and the invariant still
holds afterwards. -/
theorem C4_single_active_token_witness :
    dictGet (get_token wState "alice" "h" "tok2" 0).2.access_tokens "t1" =
      none ∧
    resolve_token (get_token wState "alice" "h" "tok2" 0).2 "t1" 0 =
      Resolved.badToken ∧
    token_invariant (get_token wState "alice" "h" "tok2" 0).2 :=
  ⟨((C4_single_active_token wState (get_token wState "alice" "h" "tok2" 0).2
      "alice" "h" "tok2" 500 900 0 (by decide) (by decide) (by decide)
      (by decide)).1 "t1" wAlice (by decide) (by decide)).1,
   ((C4_single_active_token wState (get_token wState "alice" "h" "tok2" 0).2
      "alice" "h" "tok2" 500 900 0 (by decide) (by decide) (by decide)
      (by decide)).1 "t1" wAlice (by decide) (by decide)).2 0,
   (C4_single_active_token wState (get_token wState "alice" "h" "tok2" 0).2
      "alice" "h" "tok2" 500 900 0 (by decide) (by decide) (by decide)
      (by decide)).2.1⟩
